import Mathlib

/-!
Verification of the polyomino-packing subsystem of AOC_2025, day 12
(`src/aoc/aoc_2025/day_12/main.py`).

Python `set`s of integer `(row, col)` pairs are embedded as canonically
sorted duplicate-free lists (`canon`), so that Python set equality becomes
Lean list equality.  Mutation of the occupancy grid is embedded as explicit
state passing; the memo dictionary becomes an association list.  Iteration
order over Python sets (which the source never relies on for its boolean
results) is determinized to row-major / insertion order.
-/

namespace Day12

/-- A cell position: (row, col), both integers. -/
abbrev Pos := ℤ × ℤ

/-- Strict lexicographic order on positions, used only to pick the canonical
representative list of a Python set of positions. -/
def posLt (a b : Pos) : Prop := a.1 < b.1 ∨ (a.1 = b.1 ∧ a.2 < b.2)

instance : DecidablePred fun ab : Pos × Pos => posLt ab.1 ab.2 := by
  intro ab; unfold posLt; infer_instance

instance (a b : Pos) : Decidable (posLt a b) := by
  unfold posLt; infer_instance

theorem posLt_trans {a b c : Pos} (h1 : posLt a b) (h2 : posLt b c) : posLt a c := by
  rcases h1 with h1 | ⟨h1e, h1s⟩ <;> rcases h2 with h2 | ⟨h2e, h2s⟩ <;>
    unfold posLt <;> first
      | exact Or.inl (by omega)
      | exact Or.inl (by omega)
      | exact Or.inl (by omega)
      | exact Or.inr (by omega)

theorem posLt_irrefl (a : Pos) : ¬ posLt a a := by
  unfold posLt; omega

theorem posLt_trichotomy (a b : Pos) : posLt a b ∨ a = b ∨ posLt b a := by
  unfold posLt
  rcases a with ⟨a1, a2⟩; rcases b with ⟨b1, b2⟩
  simp only [Prod.mk.injEq]
  omega

/-- Sorted insertion that skips an element already present: the building block
of the canonical representation of a Python set of positions. -/
def insertPos (p : Pos) : List Pos → List Pos
  | [] => [p]
  | q :: rest =>
    if p = q then q :: rest
    else if posLt p q then p :: q :: rest
    else q :: insertPos p rest

/-- Canonical sorted duplicate-free representative of the set of elements of
a list: two lists represent the same Python set iff their `canon`s are equal. -/
def canon (l : List Pos) : List Pos := l.foldr insertPos []

theorem mem_insertPos {a p : Pos} : ∀ {l : List Pos}, a ∈ insertPos p l ↔ a = p ∨ a ∈ l := by
  intro l
  induction l with
  | nil => simp [insertPos]
  | cons q rest ih =>
    by_cases hpq : p = q
    · subst hpq
      simp [insertPos]
    · by_cases hlt : posLt p q
      · simp [insertPos, hpq, hlt]
      · simp [insertPos, hpq, hlt, ih]
        tauto

theorem mem_canon {a : Pos} : ∀ {l : List Pos}, a ∈ canon l ↔ a ∈ l := by
  intro l
  induction l with
  | nil => simp [canon]
  | cons q rest ih =>
    show a ∈ insertPos q (canon rest) ↔ _
    rw [mem_insertPos]
    simp [ih]

theorem chain_insertPos {p : Pos} :
    ∀ {l : List Pos}, l.Chain' posLt → (insertPos p l).Chain' posLt := by
  intro l
  induction l with
  | nil => intro _; simp [insertPos]
  | cons q rest ih =>
    intro hch
    by_cases hpq : p = q
    · simpa [insertPos, hpq] using hch
    · by_cases hlt : posLt p q
      · simp only [insertPos, if_neg hpq, if_pos hlt]
        exact hch.cons hlt
      · simp only [insertPos, if_neg hpq, if_neg hlt]
        have hqp : posLt q p := by
          rcases posLt_trichotomy p q with h | h | h
          · exact absurd h hlt
          · exact absurd h hpq
          · exact h
        rcases rest with _ | ⟨r, rest⟩
        · simp [insertPos, hqp]
        · have hch2 := (List.chain'_cons.mp hch).2
          have ht := ih hch2
          rcases List.chain'_cons.mp hch with ⟨hqr, _⟩
          by_cases hpr : p = r

          · subst hpr
            simp only [insertPos, if_pos rfl]
            exact List.chain'_cons.mpr ⟨hqr, hch2⟩
          · by_cases hlt2 : posLt p r
            · simp only [insertPos, if_neg hpr, if_pos hlt2]
              exact List.chain'_cons.mpr ⟨hqp, List.chain'_cons.mpr ⟨hlt2, hch2⟩⟩
            · simp only [insertPos, if_neg hpr, if_neg hlt2] at ht ⊢
              exact List.chain'_cons.mpr ⟨hqr, ht⟩

theorem chain_canon : ∀ (l : List Pos), (canon l).Chain' posLt := by
  intro l
  induction l with
  | nil => simp [canon]
  | cons q rest ih => exact chain_insertPos ih

theorem nodup_of_chain : ∀ {l : List Pos}, l.Chain' posLt → l.Nodup := by
  intro l h
  haveI : IsTrans Pos posLt := ⟨fun _ _ _ => posLt_trans⟩
  have hp : l.Pairwise posLt := List.chain'_iff_pairwise.mp h
  exact hp.imp fun hab heq => by subst heq; exact posLt_irrefl _ hab

theorem nodup_canon (l : List Pos) : (canon l).Nodup :=
  nodup_of_chain (chain_canon l)

theorem length_insertPos_of_not_mem {p : Pos} :
    ∀ {l : List Pos}, p ∉ l → (insertPos p l).length = l.length + 1 := by
  intro l
  induction l with
  | nil => intro _; simp [insertPos]
  | cons q rest ih =>
    intro hnm
    have hpq : p ≠ q := by intro h; exact hnm (h ▸ List.mem_cons_self q rest)
    by_cases hlt : posLt p q
    · simp [insertPos, hpq, hlt]
    · have : p ∉ rest := fun h => hnm (List.mem_cons_of_mem q h)
      simp [insertPos, hpq, hlt, ih this]

theorem length_canon_of_nodup : ∀ {l : List Pos}, l.Nodup → (canon l).length = l.length := by
  intro l
  induction l with
  | nil => intro _; simp [canon]
  | cons q rest ih =>
    intro hnd
    rcases List.nodup_cons.mp hnd with ⟨hq, hrest⟩
    have hqn : q ∉ canon rest := fun h => hq (mem_canon.mp h)
    show (insertPos q (canon rest)).length = rest.length + 1
    rw [length_insertPos_of_not_mem hqn, ih hrest]

theorem canon_eq_self_of_chain : ∀ {l : List Pos}, l.Chain' posLt → canon l = l := by
  intro l
  induction l with
  | nil => intro _; rfl
  | cons q rest ih =>
    intro hch
    have hrest : rest.Chain' posLt := hch.tail
    show insertPos q (canon rest) = q :: rest
    rw [ih hrest]
    rcases rest with _ | ⟨r, rest⟩
    · rfl
    · rcases List.chain'_cons.mp hch with ⟨hqr, _⟩
      have hne : q ≠ r := fun h => posLt_irrefl _ (h ▸ hqr)
      simp [insertPos, hne, hqr]

theorem canon_idem (l : List Pos) : canon (canon l) = canon l :=
  canon_eq_self_of_chain (chain_canon l)

theorem canon_nil_iff {l : List Pos} : canon l = [] ↔ l = [] := by
  constructor
  · intro h
    rcases l with _ | ⟨p, rest⟩
    · rfl
    · exfalso
      have : p ∈ canon (p :: rest) := mem_canon.mpr (List.mem_cons_self p rest)
      rw [h] at this
      exact List.not_mem_nil p this
  · intro h; subst h; rfl

/-! ## Minimum of a list of integers (Python `min(...)` over a set) -/

/-- `min` over a list of integers; the value on `[]` is an arbitrary default
that the source never relies on (Python `min` of an empty set raises). -/
def minList : List ℤ → ℤ
  | [] => 0
  | x :: xs => xs.foldl min x

theorem foldl_min_le_init : ∀ (xs : List ℤ) (x : ℤ), xs.foldl min x ≤ x := by
  intro xs
  induction xs with
  | nil => intro x; simp
  | cons y ys ih =>
    intro x
    calc ys.foldl min (min x y) ≤ min x y := ih (min x y)
    _ ≤ x := min_le_left _ _

theorem foldl_min_le_mem : ∀ (xs : List ℤ) (x y : ℤ), y ∈ xs → xs.foldl min x ≤ y := by
  intro xs
  induction xs with
  | nil => intro x y h; exact absurd h (List.not_mem_nil y)
  | cons z zs ih =>
    intro x y hy
    rcases List.mem_cons.mp hy with h | h
    · subst h
      calc zs.foldl min (min x y) ≤ min x y := foldl_min_le_init zs _
        _ ≤ y := min_le_right _ _
    · exact ih (min x z) y h

theorem minList_le_mem : ∀ {xs : List ℤ} {x : ℤ}, x ∈ xs → minList xs ≤ x := by
  intro xs x hx
  rcases xs with _ | ⟨y, ys⟩
  · exact absurd hx (List.not_mem_nil x)
  · rcases List.mem_cons.mp hx with h | h
    · subst h; exact foldl_min_le_init ys x
    · show ys.foldl min y ≤ x
      exact foldl_min_le_mem ys y x h

theorem foldl_min_mem : ∀ (xs : List ℤ) (x : ℤ), xs.foldl min x = x ∨ xs.foldl min x ∈ xs := by
  intro xs
  induction xs with
  | nil => intro x; exact Or.inl rfl
  | cons z zs ih =>
    intro x
    rw [List.foldl_cons]
    rcases ih (min x z) with h | h
    · rcases le_total x z with hle | hle
      · rw [h, min_eq_left hle]
        exact Or.inl rfl
      · rw [h, min_eq_right hle]
        exact Or.inr (List.mem_cons_self z zs)
    · exact Or.inr (List.mem_cons_of_mem z h)

theorem minList_mem : ∀ {xs : List ℤ}, xs ≠ [] → minList xs ∈ xs := by
  intro xs h
  rcases xs with _ | ⟨y, ys⟩
  · exact absurd rfl h
  · rcases foldl_min_mem ys y with h2 | h2
    · exact List.mem_cons.mpr (Or.inl h2)
    · exact List.mem_cons.mpr (Or.inr h2)

theorem foldl_min_add (d : ℤ) :
    ∀ (xs : List ℤ) (x : ℤ), (xs.map (· + d)).foldl min (x + d) = xs.foldl min x + d := by
  intro xs
  induction xs with
  | nil => intro x; simp
  | cons y ys ih =>
    intro x
    show (ys.map (· + d)).foldl min (min (x + d) (y + d)) = ys.foldl min (min x y) + d
    rw [min_add_add_right]
    exact ih (min x y)

theorem minList_map_add (d : ℤ) {xs : List ℤ} (h : xs ≠ []) :
    minList (xs.map (· + d)) = minList xs + d := by
  rcases xs with _ | ⟨x, rest⟩
  · exact absurd rfl h
  · show (rest.map (· + d)).foldl min (x + d) = rest.foldl min x + d
    exact foldl_min_add d rest x

/-! ## Shape normalization and orientation generation
(`normalize`, `rotate_90`, `flip_horizontal`, `get_all_orientations`) -/

/-- `normalize` from `get_all_orientations`: translate so the minimum row and
minimum column are both 0; empty input maps to the empty set.  The resulting
Python (frozen)set is represented by its canonical list. -/
def normalize (coords : List Pos) : List Pos :=
  if coords = [] then []
  else
    canon (coords.map fun p =>
      (p.1 - minList (coords.map Prod.fst), p.2 - minList (coords.map Prod.snd)))

/-- `rotate_90`: rotate 90 degrees clockwise, `(r, c) -> (c, -r)`. -/
def rotate90 (coords : List Pos) : List Pos :=
  canon (coords.map fun p => (p.2, -p.1))

/-- `flip_horizontal`: `(r, c) -> (r, -c)`. -/
def flipH (coords : List Pos) : List Pos :=
  canon (coords.map fun p => (p.1, -p.2))

/-- `orientations.add(...)` on a Python set of frozensets, determinized to a
duplicate-skipping append in insertion order. -/
def addOrient (os : List (List Pos)) (o : List Pos) : List (List Pos) :=
  if o ∈ os then os else os ++ [o]

/-- The eight orientation candidates of `get_all_orientations` in generation
order: four rotations of the shape, then four rotations of its horizontal
flip, each normalized. -/
def orientationCandidates (cells : List Pos) : List (List Pos) :=
  [normalize cells,
   normalize (rotate90 cells),
   normalize (rotate90 (rotate90 cells)),
   normalize (rotate90 (rotate90 (rotate90 cells))),
   normalize (flipH cells),
   normalize (rotate90 (flipH cells)),
   normalize (rotate90 (rotate90 (flipH cells))),
   normalize (rotate90 (rotate90 (rotate90 (flipH cells))))]

/-- `get_all_orientations`: all distinct normalized rotations/reflections. -/
def getAllOrientations (cells : List Pos) : List (List Pos) :=
  (orientationCandidates cells).foldl addOrient []

theorem mem_foldl_addOrient :
    ∀ (l : List (List Pos)) (acc : List (List Pos)) (o : List Pos),
      o ∈ l.foldl addOrient acc ↔ o ∈ acc ∨ o ∈ l := by
  intro l
  induction l with
  | nil => intro acc o; simp
  | cons x xs ih =>
    intro acc o
    rw [List.foldl_cons, ih]
    unfold addOrient
    by_cases hx : x ∈ acc
    · simp only [if_pos hx, List.mem_cons]
      constructor
      · rintro (h | h)
        · exact Or.inl h
        · exact Or.inr (Or.inr h)
      · rintro (h | h | h)
        · exact Or.inl h
        · exact Or.inl (h ▸ hx)
        · exact Or.inr h
    · simp only [if_neg hx, List.mem_append, List.mem_singleton, List.mem_cons]
      tauto

theorem nodup_foldl_addOrient :
    ∀ (l : List (List Pos)) (acc : List (List Pos)), acc.Nodup → (l.foldl addOrient acc).Nodup := by
  intro l
  induction l with
  | nil => intro acc h; exact h
  | cons x xs ih =>
    intro acc h
    rw [List.foldl_cons]
    apply ih
    unfold addOrient
    by_cases hx : x ∈ acc
    · simpa [hx] using h
    · rw [if_neg hx]
      simpa [List.nodup_append] using ⟨h, hx⟩

theorem length_addOrient_le (acc : List (List Pos)) (x : List Pos) :
    (addOrient acc x).length ≤ acc.length + 1 := by
  unfold addOrient
  by_cases hx : x ∈ acc
  · simp [hx]
  · simp [hx]

theorem length_foldl_addOrient_le :
    ∀ (l : List (List Pos)) (acc : List (List Pos)),
      (l.foldl addOrient acc).length ≤ acc.length + l.length := by
  intro l
  induction l with
  | nil => intro acc; simp
  | cons x xs ih =>
    intro acc
    rw [List.foldl_cons]
    have h1 := ih (addOrient acc x)
    have h2 := length_addOrient_le acc x
    calc (xs.foldl addOrient (addOrient acc x)).length
        ≤ (addOrient acc x).length + xs.length := h1
      _ ≤ acc.length + (x :: xs).length := by
          simp only [List.length_cons]; omega

theorem getAllOrientations_nodup (cells : List Pos) : (getAllOrientations cells).Nodup :=
  nodup_foldl_addOrient _ _ List.nodup_nil

theorem getAllOrientations_length_le (cells : List Pos) :
    (getAllOrientations cells).length ≤ 8 := by
  have h := length_foldl_addOrient_le (orientationCandidates cells) []
  have h8 : (orientationCandidates cells).length = 8 := rfl
  simp only [List.length_nil] at h
  unfold getAllOrientations
  omega

theorem mem_getAllOrientations {cells : List Pos} {o : List Pos} :
    o ∈ getAllOrientations cells ↔ o ∈ orientationCandidates cells := by
  unfold getAllOrientations
  rw [mem_foldl_addOrient]
  simp

theorem getAllOrientations_ne_nil (cells : List Pos) : getAllOrientations cells ≠ [] := by
  intro h
  have : normalize cells ∈ getAllOrientations cells := by
    rw [mem_getAllOrientations]
    unfold orientationCandidates
    exact List.mem_cons_self _ _
  rw [h] at this
  exact List.not_mem_nil _ this

theorem getAllOrientations_length_pos (cells : List Pos) :
    1 ≤ (getAllOrientations cells).length := by
  rcases h : getAllOrientations cells with _ | ⟨o, os⟩
  · exact absurd h (getAllOrientations_ne_nil cells)
  · simp

/-! ## Properties of `normalize` -/

theorem normalize_map_add (S : List Pos) (dr dc : ℤ) (h : S ≠ []) :
    normalize (S.map fun p => (p.1 + dr, p.2 + dc)) = normalize S := by
  have hne : (S.map fun p => (p.1 + dr, p.2 + dc)) ≠ [] := by
    simpa using h
  unfold normalize
  rw [if_neg hne, if_neg h]
  congr 1
  have hfst : (S.map fun p => (p.1 + dr, p.2 + dc)).map Prod.fst
      = (S.map Prod.fst).map (· + dr) := by
    simp [List.map_map]
  have hsnd : (S.map fun p => (p.1 + dr, p.2 + dc)).map Prod.snd
      = (S.map Prod.snd).map (· + dc) := by
    simp [List.map_map]
  have hf : (S.map Prod.fst) ≠ [] := by simpa using h
  have hs : (S.map Prod.snd) ≠ [] := by simpa using h
  rw [hfst, hsnd, minList_map_add dr hf, minList_map_add dc hs]
  rw [List.map_map]
  apply List.map_congr_left
  intro p _
  simp only [Function.comp_apply, Prod.mk.injEq]
  constructor <;> ring

theorem minList_eq_of_mem_iff {xs ys : List ℤ} (hx : xs ≠ []) (hy : ys ≠ [])
    (h : ∀ a, a ∈ xs ↔ a ∈ ys) : minList xs = minList ys := by
  have h1 : minList xs ≤ minList ys := minList_le_mem ((h _).mpr (minList_mem hy))
  have h2 : minList ys ≤ minList xs := minList_le_mem ((h _).mp (minList_mem hx))
  omega

theorem normalize_min_fst {S : List Pos} (h : S ≠ []) :
    minList ((normalize S).map Prod.fst) = 0 := by
  unfold normalize
  rw [if_neg h]
  set mr := minList (S.map Prod.fst) with hmr
  set mc := minList (S.map Prod.snd) with hmc
  set T := S.map fun p => (p.1 - mr, p.2 - mc) with hT
  have hTne : T ≠ [] := by simp [hT, h]
  have hcne : canon T ≠ [] := fun hh => hTne (canon_nil_iff.mp hh)
  have hmemiff : ∀ a, a ∈ (canon T).map Prod.fst ↔ a ∈ T.map Prod.fst := by
    intro a
    simp only [List.mem_map]
    constructor
    · rintro ⟨p, hp, rfl⟩; exact ⟨p, mem_canon.mp hp, rfl⟩
    · rintro ⟨p, hp, rfl⟩; exact ⟨p, mem_canon.mpr hp, rfl⟩
  have h1 : (canon T).map Prod.fst ≠ [] := by simpa using hcne
  have h2 : T.map Prod.fst ≠ [] := by simpa using hTne
  rw [minList_eq_of_mem_iff h1 h2 hmemiff]
  have : T.map Prod.fst = (S.map Prod.fst).map (· + (-mr)) := by
    simp [hT, List.map_map, sub_eq_add_neg]
  rw [this, minList_map_add (-mr) (by simpa using h)]
  omega

theorem normalize_min_snd {S : List Pos} (h : S ≠ []) :
    minList ((normalize S).map Prod.snd) = 0 := by
  unfold normalize
  rw [if_neg h]
  set mr := minList (S.map Prod.fst) with hmr
  set mc := minList (S.map Prod.snd) with hmc
  set T := S.map fun p => (p.1 - mr, p.2 - mc) with hT
  have hTne : T ≠ [] := by simp [hT, h]
  have hcne : canon T ≠ [] := fun hh => hTne (canon_nil_iff.mp hh)
  have hmemiff : ∀ a, a ∈ (canon T).map Prod.snd ↔ a ∈ T.map Prod.snd := by
    intro a
    simp only [List.mem_map]
    constructor
    · rintro ⟨p, hp, rfl⟩; exact ⟨p, mem_canon.mp hp, rfl⟩
    · rintro ⟨p, hp, rfl⟩; exact ⟨p, mem_canon.mpr hp, rfl⟩
  have h1 : (canon T).map Prod.snd ≠ [] := by simpa using hcne
  have h2 : T.map Prod.snd ≠ [] := by simpa using hTne
  rw [minList_eq_of_mem_iff h1 h2 hmemiff]
  have : T.map Prod.snd = (S.map Prod.snd).map (· + (-mc)) := by
    simp [hT, List.map_map, sub_eq_add_neg]
  rw [this, minList_map_add (-mc) (by simpa using h)]
  omega

theorem normalize_ne_nil {S : List Pos} (h : S ≠ []) : normalize S ≠ [] := by
  unfold normalize
  rw [if_neg h]
  intro hh
  have h2 := canon_nil_iff.mp hh
  have h3 : S = [] := by simpa using h2
  exact h h3

theorem canon_normalize (S : List Pos) : canon (normalize S) = normalize S := by
  by_cases h : S = []
  · subst h; rfl
  · unfold normalize
    rw [if_neg h]
    exact canon_idem _

theorem normalize_eq_self_of_canonical {N : List Pos} (hne : N ≠ [])
    (h1 : minList (N.map Prod.fst) = 0) (h2 : minList (N.map Prod.snd) = 0)
    (h3 : canon N = N) : normalize N = N := by
  unfold normalize
  rw [if_neg hne, h1, h2]
  have hmap : (N.map fun p => (p.1 - 0, p.2 - 0)) = N := by
    have hp : ∀ p : Pos, (p.1 - 0, p.2 - 0) = p := by intro p; simp
    simp [hp]
  rw [hmap, h3]

theorem normalize_idem {S : List Pos} (h : S ≠ []) :
    normalize (normalize S) = normalize S :=
  normalize_eq_self_of_canonical (normalize_ne_nil h)
    (normalize_min_fst h) (normalize_min_snd h) (canon_normalize S)

/-! ## The admissibility estimator (`can_fit_by_area`) -/

/-- `sum(present_counts[i] * shape_sizes.get(i, 0) for i in range(len(...)))`.
The Python dict with `.get(i, 0)` default is modelled as the total function
`sizes`. -/
def totalCells (counts : List ℕ) (sizes : ℕ → ℕ) : ℕ :=
  ((List.range counts.length).map fun i => counts.getD i 0 * sizes i).sum

/-- `can_fit_by_area`: `some true` = definitely fits, `some false` = definitely
does not fit, `none` = uncertain. -/
def canFitByArea (w h : ℕ) (counts : List ℕ) (sizes : ℕ → ℕ) : Option Bool :=
  if totalCells counts sizes > w * h then some false
  else if counts.sum ≤ (w / 3) * (h / 3) then some true
  else none

theorem canFitByArea_false_iff (w h : ℕ) (counts : List ℕ) (sizes : ℕ → ℕ) :
    canFitByArea w h counts sizes = some false ↔ w * h < totalCells counts sizes := by
  unfold canFitByArea
  by_cases h1 : totalCells counts sizes > w * h
  · rw [if_pos h1]
    exact iff_of_true rfl (by omega)
  · rw [if_neg h1]
    by_cases h2 : counts.sum ≤ (w / 3) * (h / 3)
    · rw [if_pos h2]
      exact iff_of_false (by simp) (by omega)
    · rw [if_neg h2]
      exact iff_of_false (by simp) (by omega)

theorem canFitByArea_true_iff (w h : ℕ) (counts : List ℕ) (sizes : ℕ → ℕ) :
    canFitByArea w h counts sizes = some true ↔
      totalCells counts sizes ≤ w * h ∧ counts.sum ≤ (w / 3) * (h / 3) := by
  unfold canFitByArea
  by_cases h1 : totalCells counts sizes > w * h
  · rw [if_pos h1]
    exact iff_of_false (by simp) (fun hc => by omega)
  · rw [if_neg h1]
    by_cases h2 : counts.sum ≤ (w / 3) * (h / 3)
    · rw [if_pos h2]
      exact iff_of_true rfl ⟨by omega, h2⟩
    · rw [if_neg h2]
      exact iff_of_false (by simp) (fun hc => h2 hc.2)

/-! ## Occupancy grid and the placement engine (`can_place`, `place`) -/

/-- The occupancy matrix `grid`: a list of `height` rows of `width` booleans. -/
abbrev Grid := List (List Bool)

/-- Read `grid[r][c]` (out-of-range reads return `false`; the source only
reads in bounds). -/
def getCell (g : Grid) (r c : ℕ) : Bool := (g.getD r []).getD c false

/-- Write `grid[r][c] = b` (out-of-range writes are dropped; the source only
writes in bounds). -/
def setCell (g : Grid) (r c : ℕ) (b : Bool) : Grid :=
  g.set r ((g.getD r []).set c b)

/-- `grid = [[False] * width for _ in range(height)]`. -/
def mkGrid (w h : ℕ) : Grid := List.replicate h (List.replicate w false)

/-! Generic little list lemmas about `set`/`getD`. -/

theorem getD_set_self {α} (d : α) :
    ∀ (l : List α) (n : ℕ) (a : α), n < l.length → (l.set n a).getD n d = a := by
  intro l
  induction l with
  | nil => intro n a h; simp at h
  | cons x xs ih =>
    intro n a h
    cases n with
    | zero => rfl
    | succ m =>
      have : m < xs.length := by simpa using h
      simpa [List.set, List.getD] using ih m a this

theorem getD_set_ne {α} (d : α) :
    ∀ (l : List α) (n m : ℕ) (a : α), n ≠ m → (l.set n a).getD m d = l.getD m d := by
  intro l
  induction l with
  | nil => intro n m a _; simp
  | cons x xs ih =>
    intro n m a hnm
    cases n with
    | zero =>
      cases m with
      | zero => exact absurd rfl hnm
      | succ k => rfl
    | succ j =>
      cases m with
      | zero => rfl
      | succ k =>
        have : j ≠ k := by omega
        simpa [List.set, List.getD] using ih j k a this

theorem set_of_le {α} : ∀ (l : List α) (n : ℕ) (a : α), l.length ≤ n → l.set n a = l := by
  intro l
  induction l with
  | nil => intro n a _; rfl
  | cons x xs ih =>
    intro n a h
    cases n with
    | zero => simp at h
    | succ m =>
      have : xs.length ≤ m := by simpa using h
      simp [List.set, ih m a this]

theorem getD_of_le {α} (d : α) : ∀ (l : List α) (n : ℕ), l.length ≤ n → l.getD n d = d := by
  intro l
  induction l with
  | nil => intro n _; simp
  | cons x xs ih =>
    intro n h
    cases n with
    | zero => simp at h
    | succ m =>
      have : xs.length ≤ m := by simpa using h
      simpa [List.getD] using ih m this

theorem list_ext_getD {α} (d : α) :
    ∀ (l₁ l₂ : List α), l₁.length = l₂.length →
      (∀ n, l₁.getD n d = l₂.getD n d) → l₁ = l₂ := by
  intro l₁
  induction l₁ with
  | nil =>
    intro l₂ hlen _
    cases l₂ with
    | nil => rfl
    | cons y ys => simp at hlen
  | cons x xs ih =>
    intro l₂ hlen hget
    cases l₂ with
    | nil => simp at hlen
    | cons y ys =>
      have h0 : x = y := hget 0
      have hlen2 : xs.length = ys.length := by simpa using hlen
      have hrest : ∀ n, xs.getD n d = ys.getD n d := fun n => hget (n + 1)
      rw [h0, ih ys hlen2 hrest]

/-! Dimension preservation and cell characterization for `setCell`. -/

theorem length_setCell (g : Grid) (r c : ℕ) (b : Bool) :
    (setCell g r c b).length = g.length := by
  simp [setCell]

theorem rowlen_setCell (g : Grid) (r c : ℕ) (b : Bool) (r' : ℕ) :
    ((setCell g r c b).getD r' []).length = (g.getD r' []).length := by
  unfold setCell
  by_cases hrr : r = r'
  · subst hrr
    by_cases hr : r < g.length
    · rw [getD_set_self [] g r _ hr]
      simp
    · rw [set_of_le g r _ (by omega)]
  · rw [getD_set_ne [] g r r' _ hrr]

theorem getCell_setCell (g : Grid) (a b : ℕ) (v : Bool) (x y : ℕ) :
    getCell (setCell g a b v) x y =
      if x = a ∧ y = b ∧ a < g.length ∧ b < (g.getD a []).length then v
      else getCell g x y := by
  unfold getCell setCell
  by_cases hxa : x = a
  · subst hxa
    by_cases hx : x < g.length
    · rw [getD_set_self [] g x _ hx]
      by_cases hyb : y = b
      · subst hyb
        by_cases hy : y < (g.getD x []).length
        · rw [getD_set_self false _ y v hy]
          rw [if_pos ⟨rfl, rfl, hx, hy⟩]
        · rw [set_of_le _ y v (by omega)]
          rw [if_neg (by tauto)]
      · rw [getD_set_ne false _ b y v (fun hh => hyb hh.symm)]
        rw [if_neg (by tauto)]
    · rw [set_of_le g x _ (by omega)]
      rw [if_neg (by tauto)]
  · rw [getD_set_ne [] g a x _ (fun hh => hxa hh.symm)]
    rw [if_neg (by tauto)]

/-- `can_place`: every cell of the shape, anchored at `(row, col)`, is in
bounds and unoccupied. -/
def canPlace (g : Grid) (cells : List Pos) (row col : ℤ) (w h : ℕ) : Bool :=
  cells.all fun p =>
    decide (0 ≤ row + p.1) && decide (row + p.1 < (h : ℤ)) &&
    decide (0 ≤ col + p.2) && decide (col + p.2 < (w : ℤ)) &&
    !getCell g (row + p.1).toNat (col + p.2).toNat

theorem canPlace_iff {g : Grid} {cells : List Pos} {row col : ℤ} {w h : ℕ} :
    canPlace g cells row col w h = true ↔
      ∀ p ∈ cells, 0 ≤ row + p.1 ∧ row + p.1 < (h : ℤ) ∧
        0 ≤ col + p.2 ∧ col + p.2 < (w : ℤ) ∧
        getCell g (row + p.1).toNat (col + p.2).toNat = false := by
  unfold canPlace
  rw [List.all_eq_true]
  constructor
  · intro hp p hmem
    have := hp p hmem
    simp only [Bool.and_eq_true, decide_eq_true_eq, Bool.not_eq_true'] at this
    tauto
  · intro hp p hmem
    have := hp p hmem
    simp only [Bool.and_eq_true, decide_eq_true_eq, Bool.not_eq_true']
    tauto

/-- `place`: mark (or unmark) every cell of the shape on the grid. -/
def place (g : Grid) (cells : List Pos) (row col : ℤ) (mark : Bool) : Grid :=
  cells.foldl (fun gr p => setCell gr (row + p.1).toNat (col + p.2).toNat mark) g

theorem length_place (cells : List Pos) :
    ∀ (g : Grid) (row col : ℤ) (b : Bool), (place g cells row col b).length = g.length := by
  induction cells with
  | nil => intro g row col b; rfl
  | cons q cs ih =>
    intro g row col b
    show (place (setCell g _ _ b) cs row col b).length = g.length
    rw [ih, length_setCell]

theorem rowlen_place (cells : List Pos) :
    ∀ (g : Grid) (row col : ℤ) (b : Bool) (r : ℕ),
      ((place g cells row col b).getD r []).length = (g.getD r []).length := by
  induction cells with
  | nil => intro g row col b r; rfl
  | cons q cs ih =>
    intro g row col b r
    show ((place (setCell g _ _ b) cs row col b).getD r []).length = _
    rw [ih, rowlen_setCell]

theorem getCell_place (cells : List Pos) :
    ∀ (g : Grid) (row col : ℤ) (b : Bool) (x y : ℕ),
      getCell (place g cells row col b) x y =
        if ∃ p ∈ cells, (row + p.1).toNat = x ∧ (col + p.2).toNat = y
            ∧ x < g.length ∧ y < (g.getD x []).length then b
        else getCell g x y := by
  induction cells with
  | nil =>
    intro g row col b x y
    rw [if_neg (by simp)]
    rfl
  | cons q cs ih =>
    intro g row col b x y
    show getCell (place (setCell g (row + q.1).toNat (col + q.2).toNat b) cs row col b) x y = _
    rw [ih]
    rw [length_setCell, rowlen_setCell]
    by_cases hcs : ∃ p ∈ cs, (row + p.1).toNat = x ∧ (col + p.2).toNat = y
        ∧ x < g.length ∧ y < (g.getD x []).length
    · rw [if_pos hcs]
      rcases hcs with ⟨p, hp, hrest⟩
      rw [if_pos ⟨p, List.mem_cons_of_mem q hp, hrest⟩]
    · rw [if_neg hcs, getCell_setCell]
      by_cases hq : (row + q.1).toNat = x ∧ (col + q.2).toNat = y
          ∧ x < g.length ∧ y < (g.getD x []).length
      · rcases hq with ⟨h1, h2, h3, h4⟩
        subst h1; subst h2
        rw [if_pos ⟨rfl, rfl, h3, h4⟩]
        rw [if_pos ⟨q, List.mem_cons_self q cs, rfl, rfl, h3, h4⟩]
      · rw [if_neg (by
          rintro ⟨he1, he2, he3, he4⟩
          subst he1; subst he2
          exact hq ⟨rfl, rfl, he3, he4⟩)]
        rw [if_neg (by
          rintro ⟨p, hp, hrest⟩
          rcases List.mem_cons.mp hp with h | h
          · subst h; exact hq hrest
          · exact hcs ⟨p, h, hrest⟩)]

/-- Unplacing exactly what was just placed restores the grid, provided
`can_place` held before the placement (§4.4 caller contract). -/
theorem place_unplace (g : Grid) (cells : List Pos) (row col : ℤ) (w h : ℕ)
    (hcp : canPlace g cells row col w h = true) :
    place (place g cells row col true) cells row col false = g := by
  apply list_ext_getD ([] : List Bool)
  · rw [length_place, length_place]
  · intro r
    apply list_ext_getD false
    · show ((place (place g cells row col true) cells row col false).getD r []).length
        = ((g.getD r []).length)
      rw [rowlen_place, rowlen_place]
    · intro c
      show getCell (place (place g cells row col true) cells row col false) r c = getCell g r c
      rw [getCell_place]
      rw [length_place, rowlen_place]
      by_cases hex : ∃ p ∈ cells, (row + p.1).toNat = r ∧ (col + p.2).toNat = c
          ∧ r < g.length ∧ c < (g.getD r []).length
      · rw [if_pos hex]
        rcases hex with ⟨p, hp, h1, h2, _, _⟩
        have := (canPlace_iff.mp hcp) p hp
        rw [← h1, ← h2]
        exact (this.2.2.2.2).symm
      · rw [if_neg hex, getCell_place, if_neg hex]

/-- Well-formedness of a `height × width` grid. -/
def GridWF (w h : ℕ) (g : Grid) : Prop :=
  g.length = h ∧ ∀ r, (g.getD r []).length = if r < h then w else 0

theorem getD_replicate_eval {α} (d a : α) :
    ∀ (n k : ℕ), (List.replicate n a).getD k d = if k < n then a else d := by
  intro n
  induction n with
  | zero => intro k; simp
  | succ m ih =>
    intro k
    cases k with
    | zero => simp [List.replicate]
    | succ j =>
      show (List.replicate m a).getD j d = _
      rw [ih j]
      by_cases hj : j < m
      · rw [if_pos hj, if_pos (by omega)]
      · rw [if_neg hj, if_neg (by omega)]

theorem mkGrid_WF (w h : ℕ) : GridWF w h (mkGrid w h) := by
  constructor
  · simp [mkGrid]
  · intro r
    unfold mkGrid
    rw [getD_replicate_eval]
    by_cases hr : r < h
    · rw [if_pos hr, if_pos hr]
      simp
    · rw [if_neg hr, if_neg hr]
      rfl

theorem place_WF {w h : ℕ} {g : Grid} (hWF : GridWF w h g)
    (cells : List Pos) (row col : ℤ) (b : Bool) :
    GridWF w h (place g cells row col b) := by
  constructor
  · rw [length_place]; exact hWF.1
  · intro r
    rw [rowlen_place]; exact hWF.2 r

theorem getCell_mkGrid (w h : ℕ) (r c : ℕ) : getCell (mkGrid w h) r c = false := by
  unfold getCell mkGrid
  rw [getD_replicate_eval]
  by_cases hr : r < h
  · rw [if_pos hr, getD_replicate_eval]
    by_cases hc : c < w
    · rw [if_pos hc]
    · rw [if_neg hc]
  · rw [if_neg hr]
    rfl

/-! ## The backtracking search (`solve_region_backtrack`) -/

/-- `presents`: shape id repeated `count` times, in increasing id order
(the `enumerate` loop of the source). -/
def presentsFrom : ℕ → List ℕ → List ℕ
  | _, [] => []
  | i, c :: rest => List.replicate c i ++ presentsFrom (i + 1) rest

def presentsList (counts : List ℕ) : List ℕ := presentsFrom 0 counts

/-- `count_empty_cells`. -/
def countEmpty (g : Grid) : ℕ := (g.map fun row => (row.filter fun b => !b).length).sum

def anyFilled (g : Grid) : Bool := g.any fun row => row.any id

/-- An empty cell `(r, c)` is in the Python `adjacent` set iff one of its
in-bounds 4-neighbors is filled. -/
def hasFilledNeighbor (g : Grid) (w h r c : ℕ) : Bool :=
  (decide (0 < r) && getCell g (r - 1) c) ||
  (decide (r + 1 < h) && getCell g (r + 1) c) ||
  (decide (0 < c) && getCell g r (c - 1)) ||
  (decide (c + 1 < w) && getCell g r (c + 1))

/-- All grid positions in row-major order (the scan order of the source). -/
def positionsRM (w h : ℕ) : List (ℕ × ℕ) :=
  ((List.range h).map fun r => (List.range w).map fun c => (r, c)).flatten

def firstEmpty (g : Grid) (w h : ℕ) : List (ℕ × ℕ) :=
  match (positionsRM w h).filter (fun rc => !getCell g rc.1 rc.2) with
  | [] => []
  | p :: _ => [p]

/-- `get_adjacent_positions`, as a row-major list: the frontier of empty cells
4-adjacent to a filled cell, or the first empty cell when nothing is placed. -/
def adjacentPositions (g : Grid) (w h : ℕ) : List (ℕ × ℕ) :=
  if anyFilled g then
    (positionsRM w h).filter fun rc =>
      !getCell g rc.1 rc.2 && hasFilledNeighbor g w h rc.1 rc.2
  else firstEmpty g w h

/-- The memo dict `(grid_state, present_index) -> bool` as an association
list (newest entry first). -/
abbrev Memo := List ((Grid × ℕ) × Bool)

def memoFind (g : Grid) (idx : ℕ) : Memo → Option Bool
  | [] => none
  | (key, b) :: m => if key = (g, idx) then some b else memoFind g idx m

/-- The `(orientation, candidate cell)` pairs tried by the two nested loops,
orientation-major, candidate cells computed once from the entry grid. -/
def pairsFor (g : Grid) (w h : ℕ) (ors : List (List Pos)) : List (List Pos × ℕ × ℕ) :=
  (ors.map fun o => (adjacentPositions g w h).map fun rc => (o, rc)).flatten

/-- The placement loop of `backtrack`: try each `(orientation, cell)` pair;
on success keep the placement and propagate; on failure unplace and continue.
`k` is the recursive call for the next present index. -/
def placeLoop (w h : ℕ) (k : Grid → Memo → Bool × Grid × Memo) :
    Grid → Memo → List (List Pos × ℕ × ℕ) → Bool × Grid × Memo
  | g, m, [] => (false, g, m)
  | g, m, (o, rc) :: rest =>
    if canPlace g o (rc.1 : ℤ) (rc.2 : ℤ) w h then
      match k (place g o (rc.1 : ℤ) (rc.2 : ℤ) true) m with
      | (true, g2, m2) => (true, g2, m2)
      | (false, g2, m2) => placeLoop w h k (place g2 o (rc.1 : ℤ) (rc.2 : ℤ) false) m2 rest
    else placeLoop w h k g m rest

/-- `backtrack(idx)` with the memo table, as explicit state passing.  The
remaining suffix of `presents` drives the recursion; `idx` is carried for the
memo key.  Returns (result, grid, memo). -/
def backtrackM (w h : ℕ) (orients : ℕ → List (List Pos)) :
    List ℕ → ℕ → Grid → Memo → Bool × Grid × Memo
  | [], _, g, m => (true, g, m)
  | s :: rest, idx, g, m =>
    match memoFind g idx m with
    | some b => (b, g, m)
    | none =>
      if rest.length + 1 > countEmpty g then
        (false, g, ((g, idx), false) :: m)
      else
        match placeLoop w h (fun g0 m0 => backtrackM w h orients rest (idx + 1) g0 m0) g m
            (pairsFor g w h (orients s)) with
        | (true, g2, m2) => (true, g2, ((g, idx), true) :: m2)
        | (false, g2, m2) => (false, g2, ((g, idx), false) :: m2)

/-- `solve_region_backtrack`. -/
def solveRegionBacktrack (w h : ℕ) (counts : List ℕ)
    (orients : ℕ → List (List Pos)) : Bool :=
  (backtrackM w h orients (presentsList counts) 0 (mkGrid w h) []).1

/-- The placement loop with the memo table disabled. -/
def placeLoopP (w h : ℕ) (k : Grid → Bool) :
    Grid → List (List Pos × ℕ × ℕ) → Bool
  | _, [] => false
  | g, (o, rc) :: rest =>
    if canPlace g o (rc.1 : ℤ) (rc.2 : ℤ) w h then
      if k (place g o (rc.1 : ℤ) (rc.2 : ℤ) true) then true
      else placeLoopP w h k
        (place (place g o (rc.1 : ℤ) (rc.2 : ℤ) true) o (rc.1 : ℤ) (rc.2 : ℤ) false) rest
    else placeLoopP w h k g rest

/-- `backtrack` with the memo table disabled (pure brute-force recomputation):
the same search, minus the memo lookup and stores. -/
def backtrackP (w h : ℕ) (orients : ℕ → List (List Pos)) : List ℕ → Grid → Bool
  | [], _ => true
  | s :: rest, g =>
    if rest.length + 1 > countEmpty g then false
    else placeLoopP w h (fun g0 => backtrackP w h orients rest g0) g
      (pairsFor g w h (orients s))

/-- `solve_region_backtrack` with memoization disabled. -/
def solveRegionBacktrackNoMemo (w h : ℕ) (counts : List ℕ)
    (orients : ℕ → List (List Pos)) : Bool :=
  backtrackP w h orients (presentsList counts) (mkGrid w h)

/-! ## The per-query decision of `part_1` -/

/-- `shape_sizes`: number of cells per shape id. -/
def shapeSizes (shapes : ℕ → List Pos) : ℕ → ℕ := fun i => (shapes i).length

/-- The boolean `part_1` computes for one region query: estimator verdict if
decisive, otherwise the backtracking search on precomputed orientations. -/
def part1Decision (shapes : ℕ → List Pos) (w h : ℕ) (counts : List ℕ) : Bool :=
  match canFitByArea w h counts (shapeSizes shapes) with
  | some b => b
  | none => solveRegionBacktrack w h counts fun i => getAllOrientations (shapes i)

/-! ## Sequences of `place`/`unplace` calls (§4.4 pairing discipline) -/

/-- One call to `place(grid, cells, row, col, mark)`. -/
structure PlaceOp where
  cells : List Pos
  row : ℤ
  col : ℤ
  mark : Bool

/-- Execute a sequence of `place` calls left to right. -/
def runOps (g : Grid) : List PlaceOp → Grid
  | [] => g
  | op :: rest => runOps (place g op.cells op.row op.col op.mark) rest

/-- A sequence of `place`/`unplace` calls in which each `place` is eventually
matched by exactly one `unplace` of the same shape at the same offset, in the
properly nested (stack) discipline of the backtracking search:
`seq cells r c inner rest` stands for
`place(cells,r,c,True); inner; place(cells,r,c,False); rest`. -/
inductive PairedSeq where
  | nil : PairedSeq
  | seq (cells : List Pos) (row col : ℤ) (inner rest : PairedSeq) : PairedSeq

/-- The flat list of `place` calls a `PairedSeq` stands for. -/
def PairedSeq.flatten : PairedSeq → List PlaceOp
  | .nil => []
  | .seq cells row col inner rest =>
      (PlaceOp.mk cells row col true :: inner.flatten)
        ++ (PlaceOp.mk cells row col false :: rest.flatten)

/-- The caller contract of §4.4: every `place` in the sequence is performed
on a grid where `can_place` holds for that shape and offset. -/
def PairedSeq.canPlaceOK (w h : ℕ) : Grid → PairedSeq → Prop
  | _, .nil => True
  | g, .seq cells row col inner rest =>
      canPlace g cells row col w h = true ∧
      inner.canPlaceOK w h (place g cells row col true) ∧
      rest.canPlaceOK w h
        (runOps (place g cells row col true)
          (inner.flatten ++ [PlaceOp.mk cells row col false]))

theorem runOps_append (ops₁ : List PlaceOp) :
    ∀ (g : Grid) (ops₂ : List PlaceOp), runOps g (ops₁ ++ ops₂) = runOps (runOps g ops₁) ops₂ := by
  induction ops₁ with
  | nil => intro g ops₂; rfl
  | cons op rest ih =>
    intro g ops₂
    show runOps (place g op.cells op.row op.col op.mark) (rest ++ ops₂) = _
    rw [ih]
    rfl

/-- Executing a properly paired sequence whose every `place` respects the
`can_place` contract restores the grid exactly. -/
theorem runOps_paired_restore :
    ∀ (s : PairedSeq) (w h : ℕ) (g : Grid), s.canPlaceOK w h g → runOps g s.flatten = g := by
  intro s
  induction s with
  | nil => intro w h g _; rfl
  | seq cells row col inner rest ih_inner ih_rest =>
    intro w h g hok
    rcases hok with ⟨hcp, hinner, hrest⟩
    show runOps g ((PlaceOp.mk cells row col true :: inner.flatten)
        ++ (PlaceOp.mk cells row col false :: rest.flatten)) = g
    rw [runOps_append]
    have h1 : runOps g (PlaceOp.mk cells row col true :: inner.flatten)
        = place g cells row col true := by
      show runOps (place g cells row col true) inner.flatten = _
      exact ih_inner w h _ hinner
    rw [h1]
    show runOps (place (place g cells row col true) cells row col false) rest.flatten = g
    rw [place_unplace g cells row col w h hcp]
    apply ih_rest w h
    have h2 : runOps (place g cells row col true)
        (inner.flatten ++ [PlaceOp.mk cells row col false])
        = place (place g cells row col true) cells row col false := by
      rw [runOps_append, ih_inner w h _ hinner]
      rfl
    rw [h2, place_unplace g cells row col w h hcp] at hrest
    exact hrest

/-! ## Size preservation through orientation generation -/

theorem rotFun_inj : Function.Injective (fun p : Pos => (p.2, -p.1)) := by
  intro a b hab
  simp only [Prod.mk.injEq] at hab
  rcases a with ⟨a1, a2⟩; rcases b with ⟨b1, b2⟩
  simp only [Prod.mk.injEq]
  simp only at hab
  omega

theorem flipFun_inj : Function.Injective (fun p : Pos => (p.1, -p.2)) := by
  intro a b hab
  simp only [Prod.mk.injEq] at hab
  rcases a with ⟨a1, a2⟩; rcases b with ⟨b1, b2⟩
  simp only [Prod.mk.injEq]
  simp only at hab
  omega

theorem shiftFun_inj (mr mc : ℤ) : Function.Injective (fun p : Pos => (p.1 - mr, p.2 - mc)) := by
  intro a b hab
  simp only [Prod.mk.injEq] at hab
  rcases a with ⟨a1, a2⟩; rcases b with ⟨b1, b2⟩
  simp only [Prod.mk.injEq]
  simp only at hab
  omega

theorem length_canon_map_of_inj {f : Pos → Pos} (hf : Function.Injective f)
    {l : List Pos} (hl : l.Nodup) : (canon (l.map f)).length = l.length := by
  rw [length_canon_of_nodup (hl.map hf)]
  simp

theorem nodup_rotate90 (l : List Pos) : (rotate90 l).Nodup := nodup_canon _

theorem nodup_flipH (l : List Pos) : (flipH l).Nodup := nodup_canon _

theorem length_rotate90 {l : List Pos} (hl : l.Nodup) : (rotate90 l).length = l.length :=
  length_canon_map_of_inj rotFun_inj hl

theorem length_flipH {l : List Pos} (hl : l.Nodup) : (flipH l).length = l.length :=
  length_canon_map_of_inj flipFun_inj hl

theorem length_normalize {l : List Pos} (hl : l.Nodup) : (normalize l).length = l.length := by
  by_cases h : l = []
  · subst h; rfl
  · unfold normalize
    rw [if_neg h]
    exact length_canon_map_of_inj (shiftFun_inj _ _) hl

theorem rotate90_ne_nil {l : List Pos} (h : l ≠ []) : rotate90 l ≠ [] := by
  unfold rotate90
  intro hh
  have h2 := canon_nil_iff.mp hh
  exact h (by simpa using h2)

theorem flipH_ne_nil {l : List Pos} (h : l ≠ []) : flipH l ≠ [] := by
  unfold flipH
  intro hh
  have h2 := canon_nil_iff.mp hh
  exact h (by simpa using h2)

theorem length_mem_getAllOrientations {cells : List Pos} (hnd : cells.Nodup) :
    ∀ o ∈ getAllOrientations cells, o.length = cells.length := by
  intro o ho
  have hmem := mem_getAllOrientations.mp ho
  have hr1 : (rotate90 cells).Nodup := nodup_rotate90 cells
  have hr2 : (rotate90 (rotate90 cells)).Nodup := nodup_rotate90 _
  have hf : (flipH cells).Nodup := nodup_flipH cells
  have hf1 : (rotate90 (flipH cells)).Nodup := nodup_rotate90 _
  have hf2 : (rotate90 (rotate90 (flipH cells))).Nodup := nodup_rotate90 _
  unfold orientationCandidates at hmem
  simp only [List.mem_cons, List.not_mem_nil, or_false] at hmem
  rcases hmem with h | h | h | h | h | h | h | h <;> subst h
  · exact length_normalize hnd
  · rw [length_normalize hr1, length_rotate90 hnd]
  · rw [length_normalize hr2, length_rotate90 hr1, length_rotate90 hnd]
  · rw [length_normalize (nodup_rotate90 _), length_rotate90 hr2,
      length_rotate90 hr1, length_rotate90 hnd]
  · rw [length_normalize hf, length_flipH hnd]
  · rw [length_normalize hf1, length_rotate90 hf, length_flipH hnd]
  · rw [length_normalize hf2, length_rotate90 hf1, length_rotate90 hf, length_flipH hnd]
  · rw [length_normalize (nodup_rotate90 _), length_rotate90 hf2,
      length_rotate90 hf1, length_rotate90 hf, length_flipH hnd]

theorem normalize_fixes_mem_getAllOrientations {cells : List Pos} (hne : cells ≠ []) :
    ∀ o ∈ getAllOrientations cells, normalize o = o := by
  intro o ho
  have hmem := mem_getAllOrientations.mp ho
  have h1 : rotate90 cells ≠ [] := rotate90_ne_nil hne
  have h2 : rotate90 (rotate90 cells) ≠ [] := rotate90_ne_nil h1
  have h3 : rotate90 (rotate90 (rotate90 cells)) ≠ [] := rotate90_ne_nil h2
  have hf : flipH cells ≠ [] := flipH_ne_nil hne
  have hf1 : rotate90 (flipH cells) ≠ [] := rotate90_ne_nil hf
  have hf2 : rotate90 (rotate90 (flipH cells)) ≠ [] := rotate90_ne_nil hf1
  have hf3 : rotate90 (rotate90 (rotate90 (flipH cells))) ≠ [] := rotate90_ne_nil hf2
  unfold orientationCandidates at hmem
  simp only [List.mem_cons, List.not_mem_nil, or_false] at hmem
  rcases hmem with h | h | h | h | h | h | h | h <;> subst h
  · exact normalize_idem hne
  · exact normalize_idem h1
  · exact normalize_idem h2
  · exact normalize_idem h3
  · exact normalize_idem hf
  · exact normalize_idem hf1
  · exact normalize_idem hf2
  · exact normalize_idem hf3

/-! ## Grid restoration on failing branches (§4.4 pairing inside `backtrack`) -/

theorem placeLoop_grid_of_false (w h : ℕ) (k : Grid → Memo → Bool × Grid × Memo)
    (hk : ∀ g' m', (k g' m').1 = false → (k g' m').2.1 = g') :
    ∀ (pairs : List (List Pos × ℕ × ℕ)) (g : Grid) (m : Memo),
      (placeLoop w h k g m pairs).1 = false → (placeLoop w h k g m pairs).2.1 = g := by
  intro pairs
  induction pairs with
  | nil => intro g m _; rfl
  | cons pr rest ih =>
    intro g m hres
    rcases pr with ⟨o, rc⟩
    by_cases hcp : canPlace g o (rc.1 : ℤ) (rc.2 : ℤ) w h = true
    · rcases hkm : k (place g o (rc.1 : ℤ) (rc.2 : ℤ) true) m with ⟨res, g2, m2⟩
      have hres2 := hres
      simp only [placeLoop, if_pos hcp, hkm] at hres2 ⊢
      cases res with
      | true => simp at hres2
      | false =>
        have hg2 : g2 = place g o (rc.1 : ℤ) (rc.2 : ℤ) true := by
          have := hk (place g o (rc.1 : ℤ) (rc.2 : ℤ) true) m
          rw [hkm] at this
          exact this rfl
        rw [ih _ _ hres2, hg2, place_unplace g o (rc.1 : ℤ) (rc.2 : ℤ) w h hcp]
    · have hres2 := hres
      simp only [placeLoop, if_neg hcp] at hres2 ⊢
      exact ih g m hres2

theorem backtrackM_grid_of_false (w h : ℕ) (orients : ℕ → List (List Pos)) :
    ∀ (rest : List ℕ) (idx : ℕ) (g : Grid) (m : Memo),
      (backtrackM w h orients rest idx g m).1 = false →
      (backtrackM w h orients rest idx g m).2.1 = g := by
  intro rest
  induction rest with
  | nil =>
    intro idx g m h
    simp [backtrackM] at h
  | cons s rest ih =>
    intro idx g m hres
    rcases hmf : memoFind g idx m with _ | b
    · by_cases hpr : rest.length + 1 > countEmpty g
      · simp only [backtrackM, hmf, if_pos hpr]
      · rcases hpl : placeLoop w h (fun g0 m0 => backtrackM w h orients rest (idx + 1) g0 m0)
            g m (pairsFor g w h (orients s)) with ⟨res, g2, m2⟩
        have hres2 := hres
        simp only [backtrackM, hmf, if_neg hpr, hpl] at hres2 ⊢
        cases res with
        | true => simp at hres2
        | false =>
          have := placeLoop_grid_of_false w h
            (fun g0 m0 => backtrackM w h orients rest (idx + 1) g0 m0)
            (fun g' m' => ih (idx + 1) g' m') (pairsFor g w h (orients s)) g m
          rw [hpl] at this
          exact this rfl
    · simp only [backtrackM, hmf]

/-! ## Memoization never changes the answer -/

/-- Every memo entry records the result the memo-free search computes for
that exact (grid, index) state. -/
def MemoOK (w h : ℕ) (orients : ℕ → List (List Pos)) (presents : List ℕ) (m : Memo) : Prop :=
  ∀ g idx b, memoFind g idx m = some b → backtrackP w h orients (presents.drop idx) g = b

theorem placeLoop_eq_placeLoopP (w h : ℕ) (k : Grid → Memo → Bool × Grid × Memo)
    (kP : Grid → Bool) (P : Memo → Prop)
    (hk : ∀ g' m', P m' → (k g' m').1 = kP g' ∧ P (k g' m').2.2)
    (hkr : ∀ g' m', (k g' m').1 = false → (k g' m').2.1 = g') :
    ∀ (pairs : List (List Pos × ℕ × ℕ)) (g : Grid) (m : Memo), P m →
      (placeLoop w h k g m pairs).1 = placeLoopP w h kP g pairs ∧
      P (placeLoop w h k g m pairs).2.2 := by
  intro pairs
  induction pairs with
  | nil => intro g m hP; exact ⟨rfl, hP⟩
  | cons pr rest ih =>
    intro g m hP
    rcases pr with ⟨o, rc⟩
    by_cases hcp : canPlace g o (rc.1 : ℤ) (rc.2 : ℤ) w h = true
    · rcases hkm : k (place g o (rc.1 : ℤ) (rc.2 : ℤ) true) m with ⟨res, g2, m2⟩
      have hk2 := hk (place g o (rc.1 : ℤ) (rc.2 : ℤ) true) m hP
      rw [hkm] at hk2
      simp only [placeLoop, placeLoopP, if_pos hcp, hkm]
      cases res with
      | true =>
        rw [← hk2.1]
        exact ⟨rfl, hk2.2⟩
      | false =>
        rw [← hk2.1]
        have hg2 : g2 = place g o (rc.1 : ℤ) (rc.2 : ℤ) true := by
          have := hkr (place g o (rc.1 : ℤ) (rc.2 : ℤ) true) m
          rw [hkm] at this
          exact this rfl
        rw [hg2]
        exact ih _ m2 hk2.2
    · simp only [placeLoop, placeLoopP, if_neg hcp]
      exact ih g m hP

theorem backtrackM_eq_backtrackP (w h : ℕ) (orients : ℕ → List (List Pos))
    (presents : List ℕ) :
    ∀ (rest : List ℕ) (idx : ℕ) (g : Grid) (m : Memo),
      presents.drop idx = rest → MemoOK w h orients presents m →
      (backtrackM w h orients rest idx g m).1 = backtrackP w h orients rest g ∧
      MemoOK w h orients presents (backtrackM w h orients rest idx g m).2.2 := by
  intro rest
  induction rest with
  | nil => intro idx g m _ hOK; exact ⟨rfl, hOK⟩
  | cons s rest ih =>
    intro idx g m hdrop hOK
    have hdrop1 : presents.drop (idx + 1) = rest := by
      rw [← List.tail_drop, hdrop, List.tail_cons]
    rcases hmf : memoFind g idx m with _ | b
    · by_cases hpr : rest.length + 1 > countEmpty g
      · have hM : backtrackM w h orients (s :: rest) idx g m
            = (false, g, ((g, idx), false) :: m) := by
          simp only [backtrackM, hmf, if_pos hpr]
        rw [hM]
        constructor
        · simp only [backtrackP, if_pos hpr]
        · intro g' i' b' hfind
          simp only [memoFind] at hfind
          by_cases hkey : ((g, idx) : Grid × ℕ) = (g', i')
          · rw [if_pos hkey] at hfind
            cases hkey
            rw [hdrop]
            simp only [backtrackP, if_pos hpr]
            injection hfind
          · rw [if_neg hkey] at hfind
            exact hOK g' i' b' hfind
      · rcases hpl : placeLoop w h (fun g0 m0 => backtrackM w h orients rest (idx + 1) g0 m0)
            g m (pairsFor g w h (orients s)) with ⟨res, g2, m2⟩
        have hloop := placeLoop_eq_placeLoopP w h
          (fun g0 m0 => backtrackM w h orients rest (idx + 1) g0 m0)
          (fun g0 => backtrackP w h orients rest g0)
          (MemoOK w h orients presents)
          (fun g' m' hP => ih (idx + 1) g' m' hdrop1 hP)
          (fun g' m' => backtrackM_grid_of_false w h orients rest (idx + 1) g' m')
          (pairsFor g w h (orients s)) g m hOK
        rw [hpl] at hloop
        have hres : res = backtrackP w h orients (s :: rest) g := by
          have h1 : res = placeLoopP w h (fun g0 => backtrackP w h orients rest g0) g
              (pairsFor g w h (orients s)) := hloop.1
          rw [h1]
          simp only [backtrackP, if_neg hpr]
        have hloop2 : MemoOK w h orients presents m2 := hloop.2
        have hOK2 : MemoOK w h orients presents (((g, idx), res) :: m2) := by
          intro g' i' b' hfind
          simp only [memoFind] at hfind
          by_cases hkey : ((g, idx) : Grid × ℕ) = (g', i')
          · rw [if_pos hkey] at hfind
            cases hkey
            rw [hdrop]
            injection hfind with hb
            rw [← hb]
            exact hres.symm
          · rw [if_neg hkey] at hfind
            exact hloop2 g' i' b' hfind
        cases res with
        | true =>
          have hM : backtrackM w h orients (s :: rest) idx g m
              = (true, g2, ((g, idx), true) :: m2) := by
            simp only [backtrackM, hmf, if_neg hpr, hpl]
          rw [hM]
          exact ⟨hres, hOK2⟩
        | false =>
          have hM : backtrackM w h orients (s :: rest) idx g m
              = (false, g2, ((g, idx), false) :: m2) := by
            simp only [backtrackM, hmf, if_neg hpr, hpl]
          rw [hM]
          exact ⟨hres, hOK2⟩
    · have hb := hOK g idx b hmf
      rw [hdrop] at hb
      have hM : backtrackM w h orients (s :: rest) idx g m = (b, g, m) := by
        simp only [backtrackM, hmf]
      rw [hM]
      exact ⟨hb.symm, hOK⟩

/-- Shared helper: the memoized search and the memo-free search agree. -/
theorem solve_eq_solveNoMemo (w h : ℕ) (counts : List ℕ)
    (orients : ℕ → List (List Pos)) :
    solveRegionBacktrack w h counts orients = solveRegionBacktrackNoMemo w h counts orients := by
  unfold solveRegionBacktrack solveRegionBacktrackNoMemo
  exact (backtrackM_eq_backtrackP w h orients (presentsList counts) (presentsList counts) 0
    (mkGrid w h) [] rfl (fun g idx b hfind => by simp [memoFind] at hfind)).1

/-! ## Packings: what it means for all required shapes to fit -/

/-- The grid cells covered by orientation `o` anchored at `(r, c)`. -/
def placedCells (o : List Pos) (r c : ℤ) : List Pos := o.map fun p => (r + p.1, c + p.2)

/-- All given cells lie inside the `width × height` region. -/
def InBoundsCells (w h : ℕ) (cells : List Pos) : Prop :=
  ∀ q ∈ cells, 0 ≤ q.1 ∧ q.1 < (h : ℤ) ∧ 0 ≤ q.2 ∧ q.2 < (w : ℤ)

instance (w h : ℕ) (cells : List Pos) : Decidable (InBoundsCells w h cells) := by
  unfold InBoundsCells; infer_instance

/-- Two placements cover no common cell. -/
def DisjointPl (a b : List Pos × ℤ × ℤ) : Prop :=
  ∀ q ∈ placedCells a.1 a.2.1 a.2.2, q ∉ placedCells b.1 b.2.1 b.2.2

instance (a b : List Pos × ℤ × ℤ) : Decidable (DisjointPl a b) := by
  unfold DisjointPl; infer_instance

/-- `pl` is a complete placement of the item sequence `items` inside the
`width × height` region: one entry per item, each using an orientation from
the item's orientation table, anchored anywhere (any integers), all cells in
bounds, and no two placements overlapping. -/
def IsPacking (w h : ℕ) (orients : ℕ → List (List Pos)) (items : List ℕ)
    (pl : List (List Pos × ℤ × ℤ)) : Prop :=
  pl.length = items.length ∧
  (∀ sp ∈ items.zip pl, sp.2.1 ∈ orients sp.1 ∧
    InBoundsCells w h (placedCells sp.2.1 sp.2.2.1 sp.2.2.2)) ∧
  pl.Pairwise DisjointPl

instance (w h : ℕ) (orients : ℕ → List (List Pos)) (items : List ℕ)
    (pl : List (List Pos × ℤ × ℤ)) : Decidable (IsPacking w h orients items pl) := by
  unfold IsPacking; infer_instance

/-- The given cells are all unoccupied on grid `g`. -/
def AvoidsGrid (g : Grid) (cells : List Pos) : Prop :=
  ∀ q ∈ cells, getCell g q.1.toNat q.2.toNat = false

/-- A packing of `items` that moreover avoids every occupied cell of `g`. -/
def IsPackingFrom (g : Grid) (w h : ℕ) (orients : ℕ → List (List Pos)) (items : List ℕ)
    (pl : List (List Pos × ℤ × ℤ)) : Prop :=
  IsPacking w h orients items pl ∧
  ∀ pr ∈ pl, AvoidsGrid g (placedCells pr.1 pr.2.1 pr.2.2)

theorem inBounds_of_canPlace {g : Grid} {o : List Pos} {r c : ℤ} {w h : ℕ}
    (hcp : canPlace g o r c w h = true) : InBoundsCells w h (placedCells o r c) := by
  intro q hq
  rcases List.mem_map.mp hq with ⟨p, hp, rfl⟩
  have hh := canPlace_iff.mp hcp p hp
  exact ⟨hh.1, hh.2.1, hh.2.2.1, hh.2.2.2.1⟩

theorem avoids_of_canPlace {g : Grid} {o : List Pos} {r c : ℤ} {w h : ℕ}
    (hcp : canPlace g o r c w h = true) : AvoidsGrid g (placedCells o r c) := by
  intro q hq
  rcases List.mem_map.mp hq with ⟨p, hp, rfl⟩
  exact (canPlace_iff.mp hcp p hp).2.2.2.2

theorem getCell_place_true_of_mem {w h : ℕ} {g : Grid} (hWF : GridWF w h g)
    {o : List Pos} {r c : ℤ} (hcp : canPlace g o r c w h = true)
    {q : Pos} (hq : q ∈ placedCells o r c) :
    getCell (place g o r c true) q.1.toNat q.2.toNat = true := by
  rcases List.mem_map.mp hq with ⟨p, hp, rfl⟩
  have hh := canPlace_iff.mp hcp p hp
  have hrlt : (r + p.1).toNat < g.length := by
    rw [hWF.1]; omega
  have hclt : (c + p.2).toNat < (g.getD (r + p.1).toNat []).length := by
    rw [hWF.2]
    rw [if_pos (by rw [← hWF.1]; exact hrlt)]
    omega
  rw [getCell_place, if_pos ⟨p, hp, rfl, rfl, hrlt, hclt⟩]

theorem getCell_false_of_place_true_false {g : Grid} {cells : List Pos} {r c : ℤ} {x y : ℕ}
    (hf : getCell (place g cells r c true) x y = false) : getCell g x y = false := by
  rw [getCell_place] at hf
  by_cases hc : ∃ p ∈ cells, (r + p.1).toNat = x ∧ (c + p.2).toNat = y
      ∧ x < g.length ∧ y < (g.getD x []).length
  · rw [if_pos hc] at hf
    cases hf
  · rw [if_neg hc] at hf
    exact hf

/-! ## Soundness of the backtracking search: a `true` answer exhibits a packing -/

theorem placeLoopP_sound (w h : ℕ) (orients : ℕ → List (List Pos)) (s : ℕ) (rest : List ℕ)
    (ih : ∀ g', GridWF w h g' → backtrackP w h orients rest g' = true →
      ∃ pl, IsPackingFrom g' w h orients rest pl) :
    ∀ (pairs : List (List Pos × ℕ × ℕ)) (g : Grid), GridWF w h g →
      (∀ pr ∈ pairs, pr.1 ∈ orients s) →
      placeLoopP w h (fun g0 => backtrackP w h orients rest g0) g pairs = true →
      ∃ pl, IsPackingFrom g w h orients (s :: rest) pl := by
  intro pairs
  induction pairs with
  | nil =>
    intro g _ _ htrue
    exact absurd htrue (by simp [placeLoopP])
  | cons pr ps ihp =>
    intro g hWF hmem htrue
    rcases pr with ⟨o, rc⟩
    have hops : o ∈ orients s := hmem (o, rc) (List.mem_cons_self _ _)
    by_cases hcp : canPlace g o (rc.1 : ℤ) (rc.2 : ℤ) w h = true
    · by_cases hrec : backtrackP w h orients rest (place g o (rc.1 : ℤ) (rc.2 : ℤ) true) = true
      · rcases ih _ (place_WF hWF o _ _ true) hrec with ⟨pl', hpk', havoid'⟩
        refine ⟨(o, (rc.1 : ℤ), (rc.2 : ℤ)) :: pl', ⟨?_, ?_, ?_⟩, ?_⟩
        · simp [hpk'.1]
        · intro sp hsp
          rcases List.mem_cons.mp hsp with hh | hh
          · subst hh
            exact ⟨hops, inBounds_of_canPlace hcp⟩
          · exact hpk'.2.1 sp hh
        · refine List.Pairwise.cons ?_ hpk'.2.2
          intro b hb q hqhead hqb
          have hqtrue := getCell_place_true_of_mem hWF hcp hqhead
          have hqfalse := havoid' b hb q hqb
          rw [hqtrue] at hqfalse
          cases hqfalse
        · intro b hb
          rcases List.mem_cons.mp hb with hh | hh
          · subst hh
            exact avoids_of_canPlace hcp
          · intro q hq
            exact getCell_false_of_place_true_false (havoid' b hh q hq)
      · have hrec2 : backtrackP w h orients rest
            (place g o (rc.1 : ℤ) (rc.2 : ℤ) true) = false := by
          cases hv : backtrackP w h orients rest (place g o (rc.1 : ℤ) (rc.2 : ℤ) true)
          · rfl
          · exact absurd hv hrec
        have htrue2 := htrue
        simp only [placeLoopP, if_pos hcp, hrec2] at htrue2
        rw [place_unplace g o (rc.1 : ℤ) (rc.2 : ℤ) w h hcp] at htrue2
        exact ihp g hWF (fun x hx => hmem x (List.mem_cons_of_mem _ hx)) htrue2
    · have htrue2 := htrue
      simp only [placeLoopP, if_neg hcp] at htrue2
      exact ihp g hWF (fun x hx => hmem x (List.mem_cons_of_mem _ hx)) htrue2

theorem pairsFor_mem_orients {g : Grid} {w h : ℕ} {ors : List (List Pos)} :
    ∀ pr ∈ pairsFor g w h ors, pr.1 ∈ ors := by
  intro pr hpr
  unfold pairsFor at hpr
  rcases List.mem_flatten.mp hpr with ⟨sub, hsub, hprsub⟩
  rcases List.mem_map.mp hsub with ⟨o, ho, rfl⟩
  rcases List.mem_map.mp hprsub with ⟨rc, _, rfl⟩
  exact ho

theorem backtrackP_sound (w h : ℕ) (orients : ℕ → List (List Pos)) :
    ∀ (rest : List ℕ) (g : Grid), GridWF w h g →
      backtrackP w h orients rest g = true →
      ∃ pl, IsPackingFrom g w h orients rest pl := by
  intro rest
  induction rest with
  | nil =>
    intro g _ _
    refine ⟨[], ⟨rfl, ?_, List.Pairwise.nil⟩, ?_⟩
    · intro sp hsp
      simp at hsp
    · intro b hb
      simp at hb
  | cons s rest ih =>
    intro g hWF htrue
    by_cases hpr : rest.length + 1 > countEmpty g
    · exfalso
      have : backtrackP w h orients (s :: rest) g = false := by
        simp only [backtrackP, if_pos hpr]
      rw [this] at htrue
      cases htrue
    · have htrue2 : placeLoopP w h (fun g0 => backtrackP w h orients rest g0) g
          (pairsFor g w h (orients s)) = true := by
        have hunf : backtrackP w h orients (s :: rest) g
            = placeLoopP w h (fun g0 => backtrackP w h orients rest g0) g
              (pairsFor g w h (orients s)) := by
          simp only [backtrackP, if_neg hpr]
        rw [← hunf]
        exact htrue
      exact placeLoopP_sound w h orients s rest ih (pairsFor g w h (orients s)) g hWF
        pairsFor_mem_orients htrue2

/-! ## The 3×3-block sufficiency construction behind `can_fit_by_area` -/

/-- The orientation fits inside a 3×3 bounding box anchored at the origin. -/
def Fits3x3 (o : List Pos) : Prop := ∀ p ∈ o, 0 ≤ p.1 ∧ p.1 < 3 ∧ 0 ≤ p.2 ∧ p.2 < 3

instance (o : List Pos) : Decidable (Fits3x3 o) := by
  unfold Fits3x3; infer_instance

theorem presentsFrom_length : ∀ (counts : List ℕ) (i : ℕ),
    (presentsFrom i counts).length = counts.sum := by
  intro counts
  induction counts with
  | nil => intro i; rfl
  | cons c rest ih =>
    intro i
    show (List.replicate c i ++ presentsFrom (i + 1) rest).length = c + rest.sum
    rw [List.length_append, List.length_replicate, ih]

/-- The anchor of the `j`-th 3×3 block, row-major over `⌊w/3⌋` block columns. -/
def blockAnchorRow (w j : ℕ) : ℤ := 3 * ((j / (w / 3) : ℕ) : ℤ)

def blockAnchorCol (w j : ℕ) : ℤ := 3 * ((j % (w / 3) : ℕ) : ℤ)

theorem block_inBounds {w h j : ℕ} (hj : j < (w / 3) * (h / 3))
    {o : List Pos} (hf : Fits3x3 o) :
    InBoundsCells w h (placedCells o (blockAnchorRow w j) (blockAnchorCol w j)) := by
  intro q hq
  rcases List.mem_map.mp hq with ⟨p, hp, rfl⟩
  have hfp := hf p hp
  have hbw : 0 < w / 3 := by
    rcases Nat.eq_zero_or_pos (w / 3) with hz | hpos
    · rw [hz, Nat.zero_mul] at hj; omega
    · exact hpos
  have hdivlt : j / (w / 3) < h / 3 := by
    rw [Nat.div_lt_iff_lt_mul hbw, Nat.mul_comm]
    exact hj
  have hmod : j % (w / 3) < w / 3 := Nat.mod_lt _ hbw
  have h3h : h / 3 * 3 ≤ h := Nat.div_mul_le_self h 3
  have h3w : w / 3 * 3 ≤ w := Nat.div_mul_le_self w 3
  unfold blockAnchorRow blockAnchorCol
  generalize hA : j / (w / 3) = A at hdivlt
  generalize hB : j % (w / 3) = B at hmod
  refine ⟨by omega, by omega, by omega, by omega⟩

theorem block_disjoint {w : ℕ} (hbw : 0 < w / 3) {j j' : ℕ} (hne : j ≠ j')
    {o o' : List Pos} (hf : Fits3x3 o) (hf' : Fits3x3 o') :
    DisjointPl (o, blockAnchorRow w j, blockAnchorCol w j)
      (o', blockAnchorRow w j', blockAnchorCol w j') := by
  intro q hq hq'
  rcases List.mem_map.mp hq with ⟨p, hp, rfl⟩
  rcases List.mem_map.mp hq' with ⟨p', hp', heq⟩
  have h1 := hf p hp
  have h2 := hf' p' hp'
  have hr := congrArg Prod.fst heq
  have hc := congrArg Prod.snd heq
  simp only [blockAnchorRow, blockAnchorCol] at hr hc
  have hjd := Nat.div_add_mod j (w / 3)
  have hjd2 := Nat.div_add_mod j' (w / 3)
  have hmlt : j % (w / 3) < w / 3 := Nat.mod_lt _ hbw
  have hmlt2 : j' % (w / 3) < w / 3 := Nat.mod_lt _ hbw
  generalize hA : j / (w / 3) = A at hr hc hjd
  generalize hB : j % (w / 3) = B at hr hc hjd hmlt
  generalize hA2 : j' / (w / 3) = A2 at hr hc hjd2
  generalize hB2 : j' % (w / 3) = B2 at hr hc hjd2 hmlt2
  have hAeq : A = A2 := by omega
  have hBeq : B = B2 := by omega
  subst hAeq
  subst hBeq
  omega

/-- Placing each item of `items` in its own 3×3 block, starting at block `k`,
yields a packing (each item must admit an orientation fitting a 3×3 box). -/
theorem blocks_construction (w h : ℕ) (orients : ℕ → List (List Pos)) :
    ∀ (items : List ℕ) (k : ℕ),
      (∀ s ∈ items, ∃ o ∈ orients s, Fits3x3 o) →
      k + items.length ≤ (w / 3) * (h / 3) →
      ∃ pl, pl.length = items.length ∧
        (∀ sp ∈ items.zip pl, sp.2.1 ∈ orients sp.1 ∧
          InBoundsCells w h (placedCells sp.2.1 sp.2.2.1 sp.2.2.2)) ∧
        pl.Pairwise DisjointPl ∧
        (∀ pr ∈ pl, ∃ j, k ≤ j ∧ j < k + items.length ∧
          pr.2.1 = blockAnchorRow w j ∧ pr.2.2 = blockAnchorCol w j ∧ Fits3x3 pr.1) := by
  intro items
  induction items with
  | nil =>
    intro k _ _
    refine ⟨[], rfl, ?_, List.Pairwise.nil, ?_⟩
    · intro sp hsp; simp at hsp
    · intro pr hpr; simp at hpr
  | cons s rest ih =>
    intro k hor hk
    rw [List.length_cons] at hk
    have hbw : 0 < w / 3 := by
      rcases Nat.eq_zero_or_pos (w / 3) with hz | hpos
      · rw [hz, Nat.zero_mul] at hk; omega
      · exact hpos
    rcases hor s (List.mem_cons_self _ _) with ⟨o, ho, hfit⟩
    rcases ih (k + 1) (fun x hx => hor x (List.mem_cons_of_mem _ hx)) (by omega) with
      ⟨pl', hlen', hzip', hpw', hblk'⟩
    refine ⟨(o, blockAnchorRow w k, blockAnchorCol w k) :: pl', by simp [hlen'], ?_, ?_, ?_⟩
    · intro sp hsp
      rcases List.mem_cons.mp hsp with hh | hh
      · subst hh
        refine ⟨ho, block_inBounds ?_ hfit⟩
        omega
      · exact hzip' sp hh
    · refine List.Pairwise.cons ?_ hpw'
      intro b hb
      rcases hblk' b hb with ⟨j, hj1, hj2, hbr, hbc, hbf⟩
      have hne : k ≠ j := by omega
      have hdj := block_disjoint hbw hne hfit hbf
      rcases b with ⟨bo, br, bc⟩
      simp only at hbr hbc
      rw [hbr, hbc]
      exact hdj
    · intro pr hpr
      rcases List.mem_cons.mp hpr with hh | hh
      · subst hh
        exact ⟨k, le_refl k, by simp, rfl, rfl, hfit⟩
      · rcases hblk' pr hh with ⟨j, hj1, hj2, hbr, hbc, hbf⟩
        exact ⟨j, by omega, by simp only [List.length_cons]; omega, hbr, hbc, hbf⟩

/-! ## Concrete shapes used by the claims -/

/-- The single-cell shape `{(0,0)}`. -/
def shapeSingle : List Pos := [(0, 0)]

/-- The 2×2 square `{(0,0),(0,1),(1,0),(1,1)}`. -/
def shapeSquare : List Pos := [(0, 0), (0, 1), (1, 0), (1, 1)]

/-- A square ring: all eight cells of a 3×3 box except its center. -/
def shapeRing : List Pos := [(0, 0), (0, 1), (0, 2), (1, 0), (1, 2), (2, 0), (2, 1), (2, 2)]

/-- The 1×4 line tetromino. -/
def shapeLine4 : List Pos := [(0, 0), (0, 1), (0, 2), (0, 3)]

/-- Shape table for the C1 counterexample query: shape 0 is the single cell,
shape 1 the ring. -/
def ringOrients : ℕ → List (List Pos) :=
  fun i => if i = 0 then getAllOrientations shapeSingle else getAllOrientations shapeRing

def lineOrients : ℕ → List (List Pos) := fun _ => getAllOrientations shapeLine4

def shapesSingleTable : ℕ → List Pos := fun _ => shapeSingle

def shapesSquareTable : ℕ → List Pos := fun _ => shapeSquare

/-! ## Claim theorems -/

/-- C1, counterexample: the claim's if-and-only-if fails on the code.  For the
3×3 region requiring one single cell (shape 0, placed first) and one square
ring (shape 1), a complete placement exists — the ring anchored at (0,0) and
the cell in its hole at (1,1) — yet `solve_region_backtrack` answers false:
the first present is restricted to the first empty cell (0,0), after which the
ring, whose only in-bounds anchor is (0,0), can never be placed. -/
theorem solveRegionBacktrack_not_complete :
    IsPacking 3 3 ringOrients (presentsList [1, 1])
      [([((0 : ℤ), (0 : ℤ))], 1, 1), (shapeRing, 0, 0)] ∧
    solveRegionBacktrack 3 3 [1, 1] ringOrients = false := by
  constructor
  · decide
  · decide

/-- C1 (amended): the search is sound in the direction the counterexample
leaves intact — whenever `solve_region_backtrack` returns true, a placement of
all required shape copies (each an orientation from the table, translated
anywhere) fits in the width-by-height grid with no overlap and no cell out of
bounds.  The converse, and the claim that the first-empty-cell/frontier
restriction never changes the answer, are refuted by the counterexample. -/
theorem solveRegionBacktrack_sound (w h : ℕ) (counts : List ℕ)
    (orients : ℕ → List (List Pos))
    (htrue : solveRegionBacktrack w h counts orients = true) :
    ∃ pl, IsPacking w h orients (presentsList counts) pl := by
  have heq := solve_eq_solveNoMemo w h counts orients
  rw [heq] at htrue
  unfold solveRegionBacktrackNoMemo at htrue
  rcases backtrackP_sound w h orients (presentsList counts) (mkGrid w h) (mkGrid_WF w h) htrue
    with ⟨pl, hpk, _⟩
  exact ⟨pl, hpk⟩

/-- C1, witness for the amended theorem at a concrete query: a 3×3 region with
one single-cell present. -/
theorem solveRegionBacktrack_sound_witness :
    solveRegionBacktrack 3 3 [1] (fun _ => getAllOrientations shapeSingle) = true ∧
    ∃ pl, IsPacking 3 3 (fun _ => getAllOrientations shapeSingle) (presentsList [1]) pl :=
  ⟨by decide, solveRegionBacktrack_sound 3 3 [1] _ (by decide)⟩

/-- C2, counterexample: `can_fit_by_area` answers definitely-fits for a query
that cannot be packed.  The 1×4 line tetromino in a 3×3 region: total cells
4 ≤ 9 and 1 present ≤ ⌊3/3⌋·⌊3/3⌋ = 1 gives `some true`, but no orientation of
the line fits in bounds — the 3×3-box justification fails for shapes larger
than 3×3, which `can_fit_by_area` never examines. -/
theorem canFitByArea_true_not_packable :
    canFitByArea 3 3 [1] (shapeSizes (fun _ => shapeLine4)) = some true ∧
    ¬ ∃ pl, IsPacking 3 3 lineOrients (presentsList [1]) pl := by
  constructor
  · decide
  · rintro ⟨pl, hlen, hzip, _⟩
    have hp : presentsList [1] = [0] := rfl
    rw [hp] at hlen hzip
    rcases pl with _ | ⟨pr, rest⟩
    · simp at hlen
    · rcases rest with _ | ⟨pr2, rest2⟩
      · rcases pr with ⟨o, r, c⟩
        have hsp := hzip (0, (o, r, c)) (by simp)
        rcases hsp with ⟨hmem, hbnd⟩
        dsimp only at hmem hbnd
        have horl : lineOrients 0
            = [[(0, 0), (0, 1), (0, 2), (0, 3)], [(0, 0), (1, 0), (2, 0), (3, 0)]] := by
          decide
        rw [horl] at hmem
        simp only [List.mem_cons, List.not_mem_nil, or_false] at hmem
        rcases hmem with ho | ho <;> subst ho
        · have h1 := hbnd (r + (0 : ℤ), c + (0 : ℤ))
            (List.mem_map.mpr ⟨((0 : ℤ), (0 : ℤ)), by decide, rfl⟩)
          have h2 := hbnd (r + (0 : ℤ), c + (3 : ℤ))
            (List.mem_map.mpr ⟨((0 : ℤ), (3 : ℤ)), by decide, rfl⟩)
          simp only at h1 h2
          omega
        · have h1 := hbnd (r + (0 : ℤ), c + (0 : ℤ))
            (List.mem_map.mpr ⟨((0 : ℤ), (0 : ℤ)), by decide, rfl⟩)
          have h2 := hbnd (r + (3 : ℤ), c + (0 : ℤ))
            (List.mem_map.mpr ⟨((3 : ℤ), (0 : ℤ)), by decide, rfl⟩)
          simp only at h1 h2
          omega
      · simp at hlen

/-- C2 (amended): `can_fit_by_area = definitely-fits` does guarantee a packing
under the spec's stated justification taken as a hypothesis: every required
shape admits an orientation inside a 3×3 bounding box.  Each of the
`sum counts ≤ ⌊w/3⌋·⌊h/3⌋` items is placed in its own 3×3 block. -/
theorem canFitByArea_true_packable (w h : ℕ) (counts : List ℕ) (sizes : ℕ → ℕ)
    (orients : ℕ → List (List Pos))
    (h3 : ∀ s ∈ presentsList counts, ∃ o ∈ orients s, Fits3x3 o)
    (htrue : canFitByArea w h counts sizes = some true) :
    ∃ pl, IsPacking w h orients (presentsList counts) pl := by
  have hsum : counts.sum ≤ (w / 3) * (h / 3) :=
    ((canFitByArea_true_iff w h counts sizes).mp htrue).2
  have hlen : (presentsList counts).length = counts.sum := presentsFrom_length counts 0
  rcases blocks_construction w h orients (presentsList counts) 0 h3 (by omega) with
    ⟨pl, h1, h2, hpw, _⟩
  exact ⟨pl, h1, h2, hpw⟩

/-- C2, witness for the amended theorem: one single-cell present in a 3×3
region. -/
theorem canFitByArea_true_packable_witness :
    (∀ s ∈ presentsList [1], ∃ o ∈ getAllOrientations shapeSingle, Fits3x3 o) ∧
    canFitByArea 3 3 [1] (shapeSizes shapesSingleTable) = some true ∧
    ∃ pl, IsPacking 3 3 (fun _ => getAllOrientations shapeSingle) (presentsList [1]) pl :=
  ⟨by decide, by decide,
    canFitByArea_true_packable 3 3 [1] (shapeSizes shapesSingleTable) _ (by decide) (by decide)⟩

/-- C3: `can_fit_by_area` returns definitely-does-not-fit exactly when the
total required cells strictly exceed the grid area; the area check is decided
first, so no such input is ever classified as fits or unknown. -/
theorem canFitByArea_definitelyNot_iff (w h : ℕ) (counts : List ℕ) (sizes : ℕ → ℕ) :
    canFitByArea w h counts sizes = some false ↔ w * h < totalCells counts sizes :=
  canFitByArea_false_iff w h counts sizes

/-- C4: whenever a `backtrack` call returns false, the grid it returns is
cell-for-cell the grid it was entered with — every placement along the failing
branch was undone by the matching unplace. -/
theorem backtrack_false_restores_grid (w h : ℕ) (orients : ℕ → List (List Pos))
    (rest : List ℕ) (idx : ℕ) (g : Grid) (m : Memo)
    (hfalse : (backtrackM w h orients rest idx g m).1 = false) :
    (backtrackM w h orients rest idx g m).2.1 = g :=
  backtrackM_grid_of_false w h orients rest idx g m hfalse

/-- C4, witness: a 1×1 region cannot hold a domino; the failing search hands
back the untouched empty grid. -/
theorem backtrack_false_restores_grid_witness :
    (backtrackM 1 1 (fun _ => [[((0 : ℤ), (0 : ℤ)), (0, 1)]]) [0] 0 (mkGrid 1 1) []).1
      = false ∧
    (backtrackM 1 1 (fun _ => [[((0 : ℤ), (0 : ℤ)), (0, 1)]]) [0] 0 (mkGrid 1 1) []).2.1
      = mkGrid 1 1 :=
  ⟨by decide, backtrack_false_restores_grid 1 1 _ [0] 0 (mkGrid 1 1) [] (by decide)⟩

/-- C5: for every region query, the memoized search and the search with the
memo table disabled (pure brute-force recomputation) return the identical
boolean. -/
theorem memo_disabled_same_answer (w h : ℕ) (counts : List ℕ)
    (orients : ℕ → List (List Pos)) :
    solveRegionBacktrack w h counts orients = solveRegionBacktrackNoMemo w h counts orients :=
  solve_eq_solveNoMemo w h counts orients

/-- C6: the per-query decisions of `part_1` on the spec's fixed small cases:
a 3×3 region with one single cell is true (decided by the estimator); a 2×2
region with two 2×2 squares is false, by the estimator's area bound alone; a
4×4 region with four 2×2 squares is true — there the estimator is
inconclusive (`none`, as 4 > ⌊4/3⌋·⌊4/3⌋ = 1) and the exact search decides
true, the two tiers agreeing on the final verdict. -/
theorem part1_fixed_small_cases :
    part1Decision shapesSingleTable 3 3 [1] = true ∧
    canFitByArea 2 2 [2] (shapeSizes shapesSquareTable) = some false ∧
    part1Decision shapesSquareTable 2 2 [2] = false ∧
    canFitByArea 4 4 [4] (shapeSizes shapesSquareTable) = none ∧
    solveRegionBacktrack 4 4 [4] (fun i => getAllOrientations (shapesSquareTable i)) = true ∧
    part1Decision shapesSquareTable 4 4 [4] = true :=
  ⟨by decide, by decide, by decide, by decide, by decide, by decide⟩

/-- C7, counterexample: the claim as stated — any sequence where each place is
matched by one unplace restores the grid — fails without the `can_place`
precondition: placing a single cell on an already-occupied 1×1 grid and then
unplacing it leaves the cell false, not true. -/
theorem paired_sequence_not_restoring :
    runOps [[true]] (PairedSeq.seq [((0 : ℤ), (0 : ℤ))] 0 0 .nil .nil).flatten = [[false]] ∧
    runOps [[true]] (PairedSeq.seq [((0 : ℤ), (0 : ℤ))] 0 0 .nil .nil).flatten ≠ [[true]] :=
  ⟨by decide, by decide⟩

/-- C7 (amended): a properly nested sequence of place/unplace calls, in which
each place is matched by exactly one unplace of the same shape at the same
offset and — as §4.4's caller contract requires — `can_place` holds at every
place, returns the grid to its pre-sequence state cell for cell. -/
theorem paired_sequence_restores_with_canPlace (w h : ℕ) (g : Grid) (s : PairedSeq)
    (hok : s.canPlaceOK w h g) : runOps g s.flatten = g :=
  runOps_paired_restore s w h g hok

/-- C7, witness: placing and unplacing one cell on the empty 1×1 grid. -/
theorem paired_sequence_restores_witness :
    (PairedSeq.seq [((0 : ℤ), (0 : ℤ))] 0 0 .nil .nil).canPlaceOK 1 1 [[false]] ∧
    runOps [[false]] (PairedSeq.seq [((0 : ℤ), (0 : ℤ))] 0 0 .nil .nil).flatten = [[false]] :=
  ⟨⟨by decide, trivial, trivial⟩,
    paired_sequence_restores_with_canPlace 1 1 [[false]] _ ⟨by decide, trivial, trivial⟩⟩

/-- C8: normalization is translation-invariant on non-empty shapes — the
normalization of any translate equals the normalization of the shape, so
shapes differing only by translation normalize to equal sets — and the
normalized result has minimum row 0 and minimum column 0. -/
theorem normalize_translation_invariant_min_zero (S : List Pos) (dr dc : ℤ) (hne : S ≠ []) :
    normalize (S.map fun p => (p.1 + dr, p.2 + dc)) = normalize S ∧
    minList ((normalize S).map Prod.fst) = 0 ∧
    minList ((normalize S).map Prod.snd) = 0 :=
  ⟨normalize_map_add S dr dc hne, normalize_min_fst hne, normalize_min_snd hne⟩

/-- C8, witness: a concrete two-cell shape translated by (7, −4). -/
theorem normalize_translation_invariant_witness :
    (([((2 : ℤ), (3 : ℤ)), (5, 1)] : List Pos) ≠ []) ∧
    (normalize (([((2 : ℤ), (3 : ℤ)), (5, 1)] : List Pos).map fun p => (p.1 + 7, p.2 + -4))
        = normalize [((2 : ℤ), (3 : ℤ)), (5, 1)] ∧
      minList ((normalize [((2 : ℤ), (3 : ℤ)), (5, 1)]).map Prod.fst) = 0 ∧
      minList ((normalize [((2 : ℤ), (3 : ℤ)), (5, 1)]).map Prod.snd) = 0) :=
  ⟨by decide, normalize_translation_invariant_min_zero [((2 : ℤ), (3 : ℤ)), (5, 1)] 7 (-4)
    (by decide)⟩

/-- C9: for every non-empty shape, `get_all_orientations` returns a list of
pairwise-distinct normalized shapes, between 1 and 8 of them; the 2×2 square
and the single cell each yield exactly one orientation. -/
theorem orientations_distinct_bounded (cells : List Pos) (hne : cells ≠ []) :
    (getAllOrientations cells).Nodup ∧
    1 ≤ (getAllOrientations cells).length ∧
    (getAllOrientations cells).length ≤ 8 ∧
    (∀ o ∈ getAllOrientations cells, normalize o = o) ∧
    getAllOrientations shapeSquare = [shapeSquare] ∧
    getAllOrientations shapeSingle = [shapeSingle] :=
  ⟨getAllOrientations_nodup cells, getAllOrientations_length_pos cells,
    getAllOrientations_length_le cells, normalize_fixes_mem_getAllOrientations hne,
    by decide, by decide⟩

/-- C9, witness: the L-tromino. -/
theorem orientations_distinct_bounded_witness :
    (([((0 : ℤ), (0 : ℤ)), (1, 0), (1, 1)] : List Pos) ≠ []) ∧
    (getAllOrientations [((0 : ℤ), (0 : ℤ)), (1, 0), (1, 1)]).Nodup ∧
    1 ≤ (getAllOrientations [((0 : ℤ), (0 : ℤ)), (1, 0), (1, 1)]).length ∧
    (getAllOrientations [((0 : ℤ), (0 : ℤ)), (1, 0), (1, 1)]).length ≤ 8 :=
  ⟨by decide,
    (orientations_distinct_bounded [((0 : ℤ), (0 : ℤ)), (1, 0), (1, 1)] (by decide)).1,
    (orientations_distinct_bounded [((0 : ℤ), (0 : ℤ)), (1, 0), (1, 1)] (by decide)).2.1,
    (orientations_distinct_bounded [((0 : ℤ), (0 : ℤ)), (1, 0), (1, 1)] (by decide)).2.2.1⟩

/-- C10: every orientation produced by `get_all_orientations` has exactly as
many cells as the input shape — rotation, reflection and normalizing
translation are injective on cell sets, so orientation generation preserves
shape size. -/
theorem orientations_preserve_size (cells : List Pos) (hnd : cells.Nodup) :
    ∀ o ∈ getAllOrientations cells, o.length = cells.length :=
  length_mem_getAllOrientations hnd

/-- C10, witness: the L-tromino, all of whose orientations have 3 cells. -/
theorem orientations_preserve_size_witness :
    (([((0 : ℤ), (0 : ℤ)), (1, 0), (1, 1)] : List Pos).Nodup) ∧
    ∀ o ∈ getAllOrientations [((0 : ℤ), (0 : ℤ)), (1, 0), (1, 1)], o.length = 3 :=
  ⟨by decide, orientations_preserve_size [((0 : ℤ), (0 : ℤ)), (1, 0), (1, 1)] (by decide)⟩

end Day12
